import Mathlib

/-!
Verification of the make-your-own-tea reactive UI runtime.

A shallow embedding of the library in `src/unnamed/part_000` (the final
revision of the tutorial series): the declarative tree model (nodes, text,
attributes, event descriptors), the tree builder, the reconciler
(`patchEvents` / `patchAttributes` / `patch`), the hydrator, and the
dispatch loop (`runProgram` / `runProgramWithHydration`), together with the
example application's `update` function.

Modelling conventions:
* DOM mutation is modelled by explicit state passing: a live `Tree` value is
  consumed and the updated value returned.
* Native listener handles (closures in the source) are modelled by fresh
  natural-number identifiers drawn from a counter threaded through every
  function that attaches listeners.  `addEventListener(name, l, once: true)`
  becomes appending a `ListenerRec` with `once := true`.
* JavaScript runtime exceptions (for example calling `.split` on a boolean,
  or `setAttribute` on a text node) are modelled by `Option`: `none` means
  the original code throws at that point.
* The mutable `_eventListeners` field on AST nodes is the `eventListeners`
  argument of the `Node` constructor: functions that push onto it in the
  source return an updated AST value here.
-/

namespace Tea

/-- Attribute model: `type Attribute = StringAttribute | BooleanAttribute`. -/
inductive Attribute where
  | StringAttribute (key : String) (value : String)
  | BooleanAttribute (key : String) (value : Bool)
deriving DecidableEq, Repr

/-- The attribute's key, common to both constructors. -/
def Attribute.key : Attribute → String
  | .StringAttribute k _ => k
  | .BooleanAttribute k _ => k

/-- JavaScript strict equality `previous.value === next.value` between the
`value` fields of two attributes: values of different runtime types
(string vs boolean) are never strictly equal. -/
def attrValuesEq : Attribute → Attribute → Bool
  | .StringAttribute _ v1, .StringAttribute _ v2 => v1 == v2
  | .BooleanAttribute _ v1, .BooleanAttribute _ v2 => v1 == v2
  | _, _ => false

/-- The native event object handed to a listener.  The example application
only ever reads `data.target.value`, so that is all we model. -/
structure NativeEvent where
  targetValue : String
deriving DecidableEq, Repr

/-- Event descriptor: `type Event<message> = { name; messageConverter }`. -/
structure Event (msg : Type) where
  name : String
  messageConverter : NativeEvent → msg

/-- Closed enumeration of supported tags:
`type Tag = "div" | "h1" | "button" | "input"`. -/
inductive Tag where
  | div | h1 | button | input
deriving DecidableEq, Repr

/-- The value of `document.createElement(tag).tagName` - the uppercase tag name of the
created element, which is what `isProperty` is matched against. -/
def Tag.toTagName : Tag → String
  | .div => "DIV"
  | .h1 => "H1"
  | .button => "BUTTON"
  | .input => "INPUT"

/-- The AST: `type Html<message> = Node<message> | TextNode`.
The `eventListeners` argument embeds the mutable `_eventListeners`
bookkeeping field of the source. -/
inductive Html (msg : Type) where
  | Node (tag : Tag) (children : List (Html msg))
         (events : List (Event msg))
         (eventListeners : List (Event msg × Nat))
         (attributes : List Attribute)
  | Text (content : String)

/-- A value assigned through the property mechanism
(`(currentTree as any)[key] = value`). -/
inductive PropVal where
  | str (s : String)
  | bool (b : Bool)
deriving DecidableEq, Repr

/-- One native listener registration on a live node: the event name it was
attached under, the identity of the native listener closure, and whether it
was registered with `once: true`. -/
structure ListenerRec where
  name : String
  id : Nat
  once : Bool
deriving DecidableEq, Repr

/-- The live presentation tree: `type Tree = HTMLElement | Text`.
An element carries its DOM attribute map, its `classList`, its property
assignments, its attached native listeners and its child nodes; a DOM text
node can also carry listeners (text nodes are event targets). -/
inductive Tree where
  | Elem (tagName : String) (attrs : List (String × String))
         (classes : List String) (props : List (String × PropVal))
         (listeners : List ListenerRec) (children : List Tree)
  | TextNode (content : String) (listeners : List ListenerRec)

/-- Models `element.addEventListener(name, listener, once)`: fresh listeners
are always distinct closures, so registration is a plain append. -/
def Tree.addListener : Tree → String → Nat → Bool → Tree
  | .Elem tg a c p ls ch, n, i, o => .Elem tg a c p (ls ++ [⟨n, i, o⟩]) ch
  | .TextNode s ls, n, i, o => .TextNode s (ls ++ [⟨n, i, o⟩])

/-- Models `element.removeEventListener(name, listener)`: drops the registration
matching both the event name and the listener identity. -/
def Tree.removeListener : Tree → String → Nat → Tree
  | .Elem tg a c p ls ch, n, i =>
      .Elem tg a c p (ls.filter (fun l => !(l.name == n && l.id == i))) ch
  | .TextNode s ls, n, i =>
      .TextNode s (ls.filter (fun l => !(l.name == n && l.id == i)))

/-- The listeners attached to the root of a live tree. -/
def Tree.rootListeners : Tree → List ListenerRec
  | .Elem _ _ _ _ ls _ => ls
  | .TextNode _ ls => ls

/-- The children of a live node (`node.childNodes`); a DOM text node has an
empty child list. -/
def Tree.childNodes : Tree → List Tree
  | .Elem _ _ _ _ _ ch => ch
  | .TextNode _ _ => []

/-- Embeds `function isProperty(tag, key)` - the closed table of tag/key pairs that
must be written through the property mechanism. -/
def isProperty (tag key : String) : Bool :=
  match tag with
  | "INPUT" =>
      key == "checked" || key == "indeterminate" || key == "value" ||
      key == "readonly" || key == "disabled"
  | "OPTION" => key == "selected" || key == "disabled"
  | "TEXTAREA" => key == "value" || key == "readonly" || key == "disabled"
  | "SELECT" => key == "value" || key == "disabled"
  | "BUTTON" => key == "disabled"
  | "OPTGROUP" => key == "disabled"
  | _ => false

/-- The property value carried by an attribute
(`element[key] = attribute.value`). -/
def propValOf : Attribute → PropVal
  | .StringAttribute _ v => .str v
  | .BooleanAttribute _ v => .bool v

/-- Assoc-list update for the DOM attribute map: `setAttribute` overwrites
an existing attribute in place or appends a new one. -/
def setAttrVal : List (String × String) → String → String → List (String × String)
  | [], k, v => [(k, v)]
  | (k0, v0) :: rest, k, v =>
      if k0 == k then (k0, v) :: rest else (k0, v0) :: setAttrVal rest k v

/-- Models `element.removeAttribute(key)` on the attribute map. -/
def eraseAttr : List (String × String) → String → List (String × String)
  | [], _ => []
  | (k0, v0) :: rest, k =>
      if k0 == k then rest else (k0, v0) :: eraseAttr rest k

/-- Lookup in the DOM attribute map (`element.getAttribute(key)`,
`none` for JavaScript `null`). -/
def lookupAttr : List (String × String) → String → Option String
  | [], _ => none
  | (k0, v0) :: rest, k => if k0 == k then some v0 else lookupAttr rest k

/-- Assoc-list update for property assignments. -/
def setPropVal : List (String × PropVal) → String → PropVal → List (String × PropVal)
  | [], k, v => [(k, v)]
  | (k0, v0) :: rest, k, v =>
      if k0 == k then (k0, v) :: rest else (k0, v0) :: setPropVal rest k v

/-- Models `value.split(" ")` of the class attribute string. -/
def splitClasses (v : String) : List String := v.splitOn " "

/-- Models `classList.add(...classes)`: appends each token not already present,
in order. -/
def classListAdd (classes toks : List String) : List String :=
  toks.foldl (fun cs t => if cs.contains t then cs else cs ++ [t]) classes

/-- The source iterates `currentTree.classList` with `for...of` while
removing tokens from it.  `DOMTokenList` is a live collection, so removing
the token at the cursor shifts the remaining tokens down and the iterator
skips the next one.  This function reproduces that semantics exactly:
`cs` is the current token list, `keep` the new class list, `i` the cursor. -/
def classRemoveLoop (cs keep : List String) (i : Nat) : List String :=
  if h : i < cs.length then
    if keep.contains (cs.get ⟨i, h⟩) then classRemoveLoop cs keep (i + 1)
    else classRemoveLoop (cs.eraseIdx i) keep i
  else cs
termination_by cs.length - i
decreasing_by
  · omega
  · have := List.length_eraseIdx (l := cs) (i := i)
    simp [h] at this
    omega

/-- Embeds `function setAttribute(currentTree, attribute)`.  `none` models a thrown
exception: the class branch casts the attribute to `StringAttribute` and
calls `.split` on its value (throws on a boolean), `classList.add` throws on
an empty token, and text nodes have none of the element methods used here. -/
def setAttribute (t : Tree) (a : Attribute) : Option Tree :=
  match t with
  | .TextNode _ _ => none
  | .Elem tg attrs classes props ls ch =>
    if a.key == "class" then
      match a with
      | .BooleanAttribute _ _ => none
      | .StringAttribute _ v =>
          let toks := splitClasses v
          if toks.contains "" then none
          else
            let cs1 := classListAdd classes toks
            some (.Elem tg attrs (classRemoveLoop cs1 toks 0) props ls ch)
    else if isProperty tg a.key then
      some (.Elem tg attrs classes (setPropVal props a.key (propValOf a)) ls ch)
    else
      match a with
      | .BooleanAttribute k v =>
          if v then some (.Elem tg (setAttrVal attrs k k) classes props ls ch)
          else if lookupAttr attrs k == some k then
            some (.Elem tg (eraseAttr attrs k) classes props ls ch)
          else some t
      | .StringAttribute k v =>
          some (.Elem tg (setAttrVal attrs k v) classes props ls ch)

/-- Models `element.removeAttribute(key)`; removing the class attribute clears the
class list.  Text nodes have no `removeAttribute` method (throws). -/
def removeAttribute (t : Tree) (k : String) : Option Tree :=
  match t with
  | .TextNode _ _ => none
  | .Elem tg attrs classes props ls ch =>
      if k == "class" then some (.Elem tg (eraseAttr attrs k) [] props ls ch)
      else some (.Elem tg (eraseAttr attrs k) classes props ls ch)

/-- Applies a list of attributes through `setAttribute`, stopping at the
first thrown exception. -/
def setAttributesAll (t : Tree) (attrs : List Attribute) : Option Tree :=
  match attrs with
  | [] => some t
  | a :: rest => match setAttribute t a with
      | none => none
      | some t1 => setAttributesAll t1 rest

/-- Result of `buildTree`: the AST with its listener registration
populated, the built live node, and the advanced listener-id counter. -/
structure BuildResult (msg : Type) where
  ast : Html msg
  tree : Tree
  counter : Nat

mutual

/-- Embeds `function buildTree(listener, html)`.  For a node: attach one one-shot
native listener per event (pushing each pairing onto `_eventListeners`),
then build and append the children in order, then apply the attributes.
`none` models an exception thrown by `setAttribute`. -/
def buildTree : Html msg → Nat → Option (BuildResult msg)
  | .Text s, c => some ⟨.Text s, .TextNode s [], c⟩
  | .Node tag ch evs regs attrs, c =>
      let pairs := evs.enum.map (fun p => (p.2, c + p.1))
      match buildTrees ch (c + evs.length) with
      | none => none
      | some (ch2, trees, c2) =>
          let e0 := Tree.Elem tag.toTagName [] [] []
            (pairs.map (fun q => ⟨q.1.name, q.2, true⟩)) trees
          match setAttributesAll e0 attrs with
          | none => none
          | some e => some ⟨.Node tag ch2 evs (regs ++ pairs) attrs, e, c2⟩

/-- Builds a list of sibling AST nodes left to right, threading the
counter. -/
def buildTrees : List (Html msg) → Nat → Option (List (Html msg) × List Tree × Nat)
  | [], c => some ([], [], c)
  | h :: rest, c =>
      match buildTree h c with
      | none => none
      | some r =>
          match buildTrees rest r.counter with
          | none => none
          | some (asts, trees, c2) => some (r.ast :: asts, r.tree :: trees, c2)

end

/-- Embeds `function patchEvents(listener, previousView, nextView, currentTree)`:
if the previous view is not text, remove every listener recorded in its
`_eventListeners`; if the next view is not text, attach one fresh one-shot
listener per event descriptor and push each pairing onto the next view's
`_eventListeners`.  Returns the updated next view, the updated live node and
the advanced listener-id counter. -/
def patchEvents (previousView nextView : Html msg) (currentTree : Tree) (c : Nat) :
    Html msg × Tree × Nat :=
  let t1 := match previousView with
    | .Text _ => currentTree
    | .Node _ _ _ regs _ =>
        regs.foldl (fun t q => t.removeListener q.1.name q.2) currentTree
  match nextView with
  | .Text s => (.Text s, t1, c)
  | .Node tag ch evs regs attrs =>
      let pairs := evs.enum.map (fun p => (p.2, c + p.1))
      let t2 := pairs.foldl (fun t q => t.addListener q.1.name q.2 true) t1
      (.Node tag ch evs (regs ++ pairs) attrs, t2, c + evs.length)

/-- A single DOM attribute call issued by `patchAttributes`. -/
inductive AttrOp where
  | set (a : Attribute)
  | remove (key : String)
deriving DecidableEq, Repr

/-- The key a DOM attribute call touches. -/
def AttrOp.opKey : AttrOp → String
  | .set a => a.key
  | .remove k => k

/-- The sequence of `setAttribute` / `removeAttribute` calls performed by
`function patchAttributes(previousView, nextView, currentTree)`.  The source
function reads only the two attribute lists to decide its calls, so it is
exactly this op list applied in order.  For each next attribute whose key
the previous view also had, the inner loop compares against the FIRST
previous attribute with that key and breaks; a `set` is issued only when
the values differ under strict equality.  Keys present only in the next
view are set; previous keys not seen in the next view are removed.  When
the previous view is text, every next attribute is set. -/
def patchAttributesOps (previousView nextView : Html msg) : List AttrOp :=
  match nextView with
  | .Text _ => []
  | .Node _ _ _ _ nextAttrs =>
    match previousView with
    | .Node _ _ _ _ prevAttrs =>
        let previousAttributeKeys := prevAttrs.map Attribute.key
        let nextAttributeKeys := nextAttrs.map Attribute.key
        (nextAttrs.flatMap (fun a =>
          if previousAttributeKeys.contains a.key then
            match prevAttrs.find? (fun b => b.key == a.key) with
            | some b => if attrValuesEq a b then [] else [AttrOp.set a]
            | none => []
          else [AttrOp.set a]))
        ++ (prevAttrs.flatMap (fun b =>
          if nextAttributeKeys.contains b.key then [] else [AttrOp.remove b.key]))
    | .Text _ => nextAttrs.map AttrOp.set

/-- Applies a sequence of DOM attribute calls, stopping at the first thrown
exception. -/
def applyAttrOps (t : Tree) : List AttrOp → Option Tree
  | [] => some t
  | op :: rest =>
      match (match op with
             | .set a => setAttribute t a
             | .remove k => removeAttribute t k) with
      | none => none
      | some t1 => applyAttrOps t1 rest

/-- The function `patchAttributes` as a live-tree transformer: the op list applied in
order. -/
def patchAttributes (previousView nextView : Html msg) (currentTree : Tree) :
    Option Tree :=
  applyAttrOps currentTree (patchAttributesOps previousView nextView)

/-- Replaces the children of an element AST node. -/
def Html.setChildren : Html msg → List (Html msg) → Html msg
  | .Node tag _ evs regs attrs, ch => .Node tag ch evs regs attrs
  | .Text s, _ => .Text s

mutual

/-- Embeds `function hydrate(listener, nextView, currentTree)`: text is a no-op;
for a node, attach one fresh one-shot listener per event descriptor
(pushing each pairing onto `_eventListeners`), then recurse into children
by index.  The guard `childNode && childNode.ELEMENT_NODE` is true for
every existing child (`ELEMENT_NODE` is the constant 1 on every DOM node),
so it only skips indices where the live tree has no child. -/
def hydrate : Html msg → Tree → Nat → Html msg × Tree × Nat
  | .Text s, t, c => (.Text s, t, c)
  | .Node tag ch evs regs attrs, t, c =>
      let pairs := evs.enum.map (fun p => (p.2, c + p.1))
      let t1 := pairs.foldl (fun tr q => tr.addListener q.1.name q.2 true) t
      match t1 with
      | .TextNode s ls =>
          (.Node tag ch evs (regs ++ pairs) attrs, .TextNode s ls,
           c + evs.length)
      | .Elem tg aa cl pp ls tch =>
          let r := hydrateChildren ch tch (c + evs.length)
          (.Node tag r.1 evs (regs ++ pairs) attrs,
           .Elem tg aa cl pp ls r.2.1, r.2.2)

/-- The child loop of `hydrate`: recurse positionally, and once the live
children run out every remaining index is skipped. -/
def hydrateChildren : List (Html msg) → List Tree → Nat →
    List (Html msg) × List Tree × Nat
  | [], live, c => ([], live, c)
  | asts, [], c => (asts, [], c)
  | a :: rest, t :: ts, c =>
      let r1 := hydrate a t c
      let r2 := hydrateChildren rest ts r1.2.2
      (r1.1 :: r2.1, r1.2.1 :: r2.2.1, r2.2.2)

end

/-- Embeds `type PatchStatus` - the mutation report. -/
structure PatchStatus where
  replaced : Nat
  patched : Nat
  removed : Nat
  added : Nat
deriving DecidableEq, Repr

/-- The all-zero report `patch` starts from. -/
def PatchStatus.zero : PatchStatus := ⟨0, 0, 0, 0⟩

/-- Result of `patch`: the report, the next AST with its listener
registration updated, the resulting live node, the advanced listener-id
counter, and (instrumentation) the nodes passed to `removeChild`, in the
order they were removed. -/
structure PatchResult (msg : Type) where
  status : PatchStatus
  nextAst : Html msg
  tree : Tree
  counter : Nat
  removedNodes : List Tree

/-- Result of the child loop of `patch`: accumulated report, the patched
child ASTs, the live children produced for indices `0..len(next)-1`, the
excess live children beyond that, the counter, and the removed nodes from
recursive patches. -/
structure ChildrenResult (msg : Type) where
  status : PatchStatus
  asts : List (Html msg)
  processed : List Tree
  leftover : List Tree
  counter : Nat
  removedNodes : List Tree

mutual

/-- Embeds `function patch(listener, previousView, nextView, currentTree)`.
`none` models a thrown exception (for example `patch(undefined, ...)` when
the live tree has more children than the previous view, or a `setAttribute`
failure).  The final `status.removed += 1` loop removing trailing excess
children appears as dropping `leftover` and recording it (in removal order,
highest index first) in `removedNodes`. -/
def patch : Html msg → Html msg → Tree → Nat → Option (PatchResult msg)
  | .Text pc, .Text nc, currentTree, c =>
      if pc == nc then some ⟨.zero, .Text nc, currentTree, c, []⟩
      else some ⟨{ PatchStatus.zero with replaced := 1 }, .Text nc,
                 .TextNode nc [], c, []⟩
  | .Text _, .Node ntag nch nev nregs nattrs, _, c =>
      match buildTree (.Node ntag nch nev nregs nattrs) c with
      | none => none
      | some r => some ⟨{ PatchStatus.zero with replaced := 1 }, r.ast,
                        r.tree, r.counter, []⟩
  | .Node _ _ _ _ _, .Text nc, _, c =>
      some ⟨{ PatchStatus.zero with replaced := 1 }, .Text nc,
            .TextNode nc [], c, []⟩
  | .Node ptag pch pev pregs pattrs, .Node ntag nch nev nregs nattrs,
      currentTree, c =>
      if ptag ≠ ntag then
        match buildTree (.Node ntag nch nev nregs nattrs) c with
        | none => none
        | some r => some ⟨{ PatchStatus.zero with replaced := 1 }, r.ast,
                          r.tree, r.counter, []⟩
      else
        let pe := patchEvents (.Node ptag pch pev pregs pattrs)
          (.Node ntag nch nev nregs nattrs) currentTree c
        match patchAttributes (.Node ptag pch pev pregs pattrs) pe.1 pe.2.1 with
        | none => none
        | some t2 =>
          match t2 with
          | .TextNode s ls =>
              -- a DOM text node has no child list: appending the first
              -- missing child would throw; with no next children the loops
              -- are empty and only `patched` is counted
              if nch.isEmpty then
                some ⟨{ PatchStatus.zero with patched := 1 }, pe.1,
                      .TextNode s ls, pe.2.2, []⟩
              else none
          | .Elem tg aa cl pp ls tch =>
              match patchChildren pch nch tch pe.2.2 with
              | none => none
              | some res =>
                  some ⟨⟨res.status.replaced, res.status.patched + 1,
                         res.status.removed + res.leftover.length,
                         res.status.added⟩,
                        pe.1.setChildren res.asts,
                        .Elem tg aa cl pp ls res.processed,
                        res.counter,
                        res.removedNodes ++ res.leftover.reverse⟩

/-- The child loop of `patch`: for each index with a next child, append a
freshly built tree when the live child is absent, otherwise recurse - and
reading `previousView.children[i]` when it does not exist while the live
child does is a thrown exception (`none`). -/
def patchChildren : List (Html msg) → List (Html msg) → List Tree → Nat →
    Option (ChildrenResult msg)
  | _, [], live, c => some ⟨.zero, [], [], live, c, []⟩
  | prevs, n :: ns, [], c =>
      match buildTree n c with
      | none => none
      | some r =>
          match patchChildren prevs.tail ns [] r.counter with
          | none => none
          | some res =>
              some ⟨{ res.status with added := res.status.added + 1 },
                    r.ast :: res.asts, r.tree :: res.processed,
                    res.leftover, res.counter, res.removedNodes⟩
  | [], _ :: _, _ :: _, _ => none
  | p :: ps, n :: ns, t :: ts, c =>
      match patch p n t c with
      | none => none
      | some pr =>
          match patchChildren ps ns ts pr.counter with
          | none => none
          | some res =>
              some ⟨⟨pr.status.replaced + res.status.replaced,
                     pr.status.patched + res.status.patched,
                     pr.status.removed + res.status.removed,
                     pr.status.added + res.status.added⟩,
                    pr.nextAst :: res.asts, pr.tree :: res.processed,
                    res.leftover, res.counter,
                    pr.removedNodes ++ res.removedNodes⟩

end

/-- The Elm-architecture contract `type Program<model, message>`.  The
optional `send` argument of `update` (used only by `ClickWithDelay` to
schedule an asynchronous message via `setTimeout`) is a host effect outside
the synchronous dispatch cycle and is not part of the pure state
transition, so `update` is modelled as `msg → model → model`. -/
structure Program (model msg : Type) where
  initialModel : model
  update : msg → model → model
  view : model → Html msg

/-- The mutable closure state of `runProgram`: `currentModel`,
`previousView`, `currentTree`, plus the listener-id counter. -/
structure LoopState (model msg : Type) where
  currentModel : model
  previousView : Html msg
  currentTree : Option Tree
  counter : Nat

/-- One invocation of the dispatch listener closure of `runProgram`:
guard on `currentTree === null`, then
`currentModel = update(msg, currentModel)`, `nextView = view(currentModel)`,
`status = patch(listener, previousView, nextView, currentTree)`,
`previousView = nextView`.  Returns the new closure state and the report
logged for the cycle (`none` when the guard made the call a no-op).  A
`none` result models the cycle aborting with an exception thrown inside
`patch`. -/
def listenerStep (program : Program model msg) (m : msg)
    (s : LoopState model msg) :
    Option (LoopState model msg × Option PatchStatus) :=
  match s.currentTree with
  | none => some (s, none)
  | some t =>
      let m2 := program.update m s.currentModel
      let nextView := program.view m2
      match patch s.previousView nextView t s.counter with
      | none => none
      | some pr =>
          some (⟨m2, pr.nextAst, some pr.tree, pr.counter⟩, some pr.status)

/-- Embeds `type RunningProgram<model, message>`: the record returned to the
caller, holding the `model` snapshot taken at return time and the `send`
function. -/
structure RunningProgram (m msg : Type) where
  model : m
  send : msg → LoopState m msg →
         Option (LoopState m msg × Option PatchStatus)

/-- Embeds `function runProgram(program)`.  `rootExists` models whether
`document.getElementById("root")` finds the mount point.  Returns the
closure state at return time, the `RunningProgram` record, and the number
of `console.error` reports issued.  `none` models an exception thrown while
building the initial tree. -/
def runProgram (program : Program model msg) (rootExists : Bool) :
    Option (LoopState model msg × RunningProgram model msg × Nat) :=
  let currentModel := program.initialModel
  let previousView := program.view currentModel
  if rootExists then
    match buildTree previousView 0 with
    | none => none
    | some r =>
        some (⟨currentModel, r.ast, some r.tree, r.counter⟩,
              ⟨currentModel, listenerStep program⟩, 0)
  else
    some (⟨currentModel, previousView, none, 0⟩,
          ⟨currentModel, fun _ s => some (s, none)⟩, 1)

/-- Embeds `function runProgramWithHydration(program)`.  `root` is `some t` when
the mount point exists with first child `t` (the API requires a singular
direct child under the root), `none` when the mount point is missing. -/
def runProgramWithHydration (program : Program model msg) (root : Option Tree) :
    Option (LoopState model msg × RunningProgram model msg × Nat) :=
  let currentModel := program.initialModel
  let previousView := program.view currentModel
  match root with
  | some rootChild =>
      let r := hydrate previousView rootChild 0
      some (⟨currentModel, r.1, some r.2.1, r.2.2⟩,
            ⟨currentModel, listenerStep program⟩, 0)
  | none =>
      some (⟨currentModel, previousView, none, 0⟩,
            ⟨currentModel, fun _ s => some (s, none)⟩, 1)

/-- Drives a sequence of `send` calls through the closure state, message by
message. -/
def processMessages
    (send : msg → LoopState model msg →
            Option (LoopState model msg × Option PatchStatus)) :
    List msg → LoopState model msg → Option (LoopState model msg)
  | [], s => some s
  | m :: ms, s =>
      match send m s with
      | none => none
      | some (s1, _) => processMessages send ms s1

/-- The example application's model. -/
structure Model where
  currentName : String
  names : List String
  checkedNames : List String
deriving DecidableEq, Repr

/-- The example application's message union. -/
inductive Message where
  | Noop
  | Click
  | ClickWithDelay
  | SetCurrentName (value : String)
  | Remove (name : String)
  | Check (name : String)
  | AddName (name : String)
deriving DecidableEq, Repr

/-- Embeds `const initialModel`: empty current name, no names, no checked names. -/
def initialModel : Model := ⟨"", [], []⟩

/-- Embeds `function update(message, model, send)`.  `ClickWithDelay` calls
`setTimeout(() => send(Click()), 3000)` and returns the model unchanged -
the scheduled message is an asynchronous host effect, so the synchronous
transition returns `model`. -/
def update (message : Message) (model : Model) : Model :=
  match message with
  | .Noop => model
  | .Click =>
      { model with
        names := model.names ++ [model.currentName],
        checkedNames := model.names ++ [model.currentName],
        currentName := "" }
  | .ClickWithDelay => model
  | .SetCurrentName v => { model with currentName := v }
  | .Remove n => { model with names := model.names.filter (fun x => x ≠ n) }
  | .Check n =>
      if model.checkedNames.contains n then
        { model with
          checkedNames := model.checkedNames.filter (fun x => x ≠ n) }
      else
        { model with checkedNames := model.checkedNames ++ [n] }
  | .AddName n =>
      { model with
        names := model.names ++ [n],
        checkedNames := model.names ++ [n] }

mutual

/-- The observable structure of a live tree: tags, DOM attributes, classes,
properties, text content and child shape, with every listener erased. -/
def Tree.strip : Tree → Tree
  | .Elem tg a cl pp _ ch => .Elem tg a cl pp [] (Tree.stripList ch)
  | .TextNode s _ => .TextNode s []

/-- Applies `Tree.strip` over a child list. -/
def Tree.stripList : List Tree → List Tree
  | [] => []
  | t :: ts => Tree.strip t :: Tree.stripList ts

end

mutual

/-- The AST with every `_eventListeners` registration erased - the value
part of the AST, as produced by a view function. -/
def Html.stripRegs : Html msg → Html msg
  | .Node tag ch evs _ attrs => .Node tag (Html.stripRegsList ch) evs [] attrs
  | .Text s => .Text s

/-- Applies `Html.stripRegs` over a child list. -/
def Html.stripRegsList : List (Html msg) → List (Html msg)
  | [] => []
  | h :: hs => Html.stripRegs h :: Html.stripRegsList hs

end

mutual

/-- The number of `Element` nodes in an AST. -/
def elemCount : Html msg → Nat
  | .Node _ ch _ _ _ => 1 + elemCountList ch
  | .Text _ => 0

/-- The function `elemCount` summed over a child list. -/
def elemCountList : List (Html msg) → Nat
  | [] => 0
  | h :: hs => elemCount h + elemCountList hs

end

/-- No string occurs twice in the list. -/
def nodupKeysB : List String → Bool
  | [] => true
  | k :: ks => !(ks.contains k) && nodupKeysB ks

mutual

/-- Every element node of the AST has pairwise distinct attribute keys. -/
def noDupAttrKeys : Html msg → Bool
  | .Node _ ch _ _ attrs =>
      nodupKeysB (attrs.map Attribute.key) && noDupAttrKeysList ch
  | .Text _ => true

/-- Applies `noDupAttrKeys` over a child list. -/
def noDupAttrKeysList : List (Html msg) → Bool
  | [] => true
  | h :: hs => noDupAttrKeys h && noDupAttrKeysList hs

end

/-- The listener registration recorded on the root AST node. -/
def Html.rootRegs : Html msg → List (Event msg × Nat)
  | .Node _ _ _ regs _ => regs
  | .Text _ => []

/-- C6: starting from `{currentName: "", names: [], checkedNames: []}`
(the initial model), applying `update` with `SetCurrentName("Ada")` and
then `Click` produces exactly
`{currentName: "", names: ["Ada"], checkedNames: ["Ada"]}`. -/
theorem update_commit_name_scenario :
    initialModel = ⟨"", [], []⟩ ∧
    update .Click (update (.SetCurrentName "Ada") initialModel) =
      ⟨"", ["Ada"], ["Ada"]⟩ :=
  ⟨rfl, rfl⟩

/-- C4: patching two text nodes with equal content is a no-op (the live
node is returned unchanged and every report count is 0); with different
content the live node is replaced by a freshly built text node and the
report is `replaced = 1`, all other counts 0. -/
theorem patch_text_nodes {msg : Type} (pc nc : String) (tree : Tree) (c : Nat) :
    (pc = nc →
      patch (Html.Text pc : Html msg) (.Text nc) tree c =
        some ⟨⟨0, 0, 0, 0⟩, .Text nc, tree, c, []⟩) ∧
    (pc ≠ nc →
      patch (Html.Text pc : Html msg) (.Text nc) tree c =
        some ⟨⟨1, 0, 0, 0⟩, .Text nc, .TextNode nc [], c, []⟩) := by
  constructor <;> intro h
  · simp [patch, h, PatchStatus.zero]
  · simp [patch, h, PatchStatus.zero]

/-- Witness for C4 at concrete inputs: equal contents are a no-op, and
distinct contents replace the live node with a fresh build. -/
theorem patch_text_nodes_witness :
    (patch (Html.Text "x" : Html Message) (.Text "x")
        (.TextNode "x" []) 0 =
      some ⟨⟨0, 0, 0, 0⟩, .Text "x", .TextNode "x" [], 0, []⟩) ∧
    (patch (Html.Text "x" : Html Message) (.Text "y")
        (.TextNode "x" []) 0 =
      some ⟨⟨1, 0, 0, 0⟩, .Text "y", .TextNode "y" [], 0, []⟩) :=
  ⟨(patch_text_nodes "x" "x" (.TextNode "x" []) 0).1 rfl,
   (patch_text_nodes "x" "y" (.TextNode "x" []) 0).2 (by decide)⟩

/-- Normal form of attaching a batch of listeners to an element. -/
theorem addFold_elem {msg : Type} (ps : List (Event msg × Nat)) (tg : String)
    (a : List (String × String)) (cl : List String)
    (pp : List (String × PropVal)) (ls : List ListenerRec)
    (ch : List Tree) :
    ps.foldl (fun t q => Tree.addListener t q.1.name q.2 true)
        (Tree.Elem tg a cl pp ls ch) =
      .Elem tg a cl pp (ls ++ ps.map (fun q => ⟨q.1.name, q.2, true⟩)) ch := by
  induction ps generalizing ls with
  | nil => simp
  | cons q qs ih =>
      have hstep : Tree.addListener (Tree.Elem tg a cl pp ls ch)
          q.1.name q.2 true =
          Tree.Elem tg a cl pp (ls ++ [⟨q.1.name, q.2, true⟩]) ch := rfl
      rw [List.foldl_cons, hstep, ih]
      simp

/-- Normal form of attaching a batch of listeners to a text node. -/
theorem addFold_text {msg : Type} (ps : List (Event msg × Nat)) (s : String)
    (ls : List ListenerRec) :
    ps.foldl (fun t q => Tree.addListener t q.1.name q.2 true) (Tree.TextNode s ls) =
      .TextNode s (ls ++ ps.map (fun q => ⟨q.1.name, q.2, true⟩)) := by
  induction ps generalizing ls with
  | nil => simp
  | cons q qs ih =>
      have hstep : Tree.addListener (Tree.TextNode s ls) q.1.name q.2 true =
          Tree.TextNode s (ls ++ [⟨q.1.name, q.2, true⟩]) := rfl
      rw [List.foldl_cons, hstep, ih]
      simp

/-- A listener survives removal of a registration batch exactly when it
matches no entry of the batch. -/
def survives {msg : Type} (regs : List (Event msg × Nat)) (l : ListenerRec) : Bool :=
  !(regs.any (fun q => l.name == q.1.name && l.id == q.2))

/-- Normal form of removing a batch of recorded listeners from an
element: each listed registration is removed, everything else survives. -/
theorem removeFold_elem {msg : Type} (regs : List (Event msg × Nat))
    (tg : String) (a : List (String × String)) (cl : List String)
    (pp : List (String × PropVal)) (ls : List ListenerRec) (ch : List Tree) :
    regs.foldl (fun t q => Tree.removeListener t q.1.name q.2)
        (Tree.Elem tg a cl pp ls ch) =
      .Elem tg a cl pp (ls.filter (survives regs)) ch := by
  induction regs generalizing ls with
  | nil =>
      have hall : ∀ l ∈ ls, survives ([] : List (Event msg × Nat)) l = true := by
        intro l _
        simp [survives]
      simp [List.filter_eq_self.mpr hall]
  | cons q qs ih =>
      have hstep : Tree.removeListener (Tree.Elem tg a cl pp ls ch)
          q.1.name q.2 =
          Tree.Elem tg a cl pp
            (ls.filter (fun l => !(l.name == q.1.name && l.id == q.2))) ch :=
        rfl
      rw [List.foldl_cons, hstep, ih, List.filter_filter]
      congr 1
      apply List.filter_congr
      intro l _
      simp [survives, Bool.and_comm]

/-- Normal form of removing a batch of recorded listeners from a text
node. -/
theorem removeFold_text {msg : Type} (regs : List (Event msg × Nat))
    (s : String) (ls : List ListenerRec) :
    regs.foldl (fun t q => Tree.removeListener t q.1.name q.2) (Tree.TextNode s ls) =
      .TextNode s (ls.filter (survives regs)) := by
  induction regs generalizing ls with
  | nil =>
      have hall : ∀ l ∈ ls, survives ([] : List (Event msg × Nat)) l = true := by
        intro l _
        simp [survives]
      simp [List.filter_eq_self.mpr hall]
  | cons q qs ih =>
      have hstep : Tree.removeListener (Tree.TextNode s ls) q.1.name q.2 =
          Tree.TextNode s
            (ls.filter (fun l => !(l.name == q.1.name && l.id == q.2))) := rfl
      rw [List.foldl_cons, hstep, ih, List.filter_filter]
      congr 1
      apply List.filter_congr
      intro l _
      simp [survives, Bool.and_comm]

/-- C3: event reconciliation between two element views first removes every
listener recorded in the previous view's registration from the live node,
then attaches one fresh native listener per event descriptor of the next
view, each registered with `once: true`, appending each pairing to the next
view's registration - with no hypothesis comparing the two descriptor
sets, so this happens unconditionally even when they are identical. -/
theorem patchEvents_unconditional_resubscribe {msg : Type}
    (ptag ntag : Tag) (pch nch : List (Html msg))
    (pev nev : List (Event msg))
    (pregs nregs : List (Event msg × Nat)) (pattrs nattrs : List Attribute)
    (tree : Tree) (c : Nat) :
    (patchEvents (.Node ptag pch pev pregs pattrs)
        (.Node ntag nch nev nregs nattrs) tree c).1 =
      .Node ntag nch nev
        (nregs ++ nev.enum.map (fun p => (p.2, c + p.1))) nattrs ∧
    (patchEvents (.Node ptag pch pev pregs pattrs)
        (.Node ntag nch nev nregs nattrs) tree c).2.1.rootListeners =
      tree.rootListeners.filter (survives pregs) ++
        nev.enum.map (fun p => ⟨p.2.name, c + p.1, true⟩) ∧
    (patchEvents (.Node ptag pch pev pregs pattrs)
        (.Node ntag nch nev nregs nattrs) tree c).2.1.strip = tree.strip ∧
    (patchEvents (.Node ptag pch pev pregs pattrs)
        (.Node ntag nch nev nregs nattrs) tree c).2.2 = c + nev.length := by
  have hsplit : ∀ t0 : Tree,
      t0.strip = tree.strip →
      t0.rootListeners = tree.rootListeners.filter (survives pregs) →
      ((nev.enum.map (fun p => ((p.2 : Event msg), c + p.1))).foldl
          (fun t q => Tree.addListener t q.1.name q.2 true) t0).rootListeners =
        tree.rootListeners.filter (survives pregs) ++
          nev.enum.map (fun p => ⟨p.2.name, c + p.1, true⟩) ∧
      ((nev.enum.map (fun p => ((p.2 : Event msg), c + p.1))).foldl
          (fun t q => Tree.addListener t q.1.name q.2 true) t0).strip =
        tree.strip := by
    intro t0 hstrip hroot
    cases t0 with
    | Elem tg a cl pp ls ch =>
        rw [addFold_elem]
        refine ⟨?_, ?_⟩
        · simp [Tree.rootListeners] at hroot ⊢
          simp [hroot, List.map_map]
        · simpa [Tree.strip] using hstrip
    | TextNode s ls =>
        rw [addFold_text]
        refine ⟨?_, ?_⟩
        · simp [Tree.rootListeners] at hroot ⊢
          simp [hroot, List.map_map]
        · simpa [Tree.strip] using hstrip
  cases tree with
  | Elem tg a cl pp ls ch =>
      have h := hsplit
        (pregs.foldl (fun t q => Tree.removeListener t q.1.name q.2)
          (Tree.Elem tg a cl pp ls ch))
        (by rw [removeFold_elem]; simp [Tree.strip])
        (by rw [removeFold_elem]; simp [Tree.rootListeners])
      exact ⟨rfl, by simpa [patchEvents, removeFold_elem] using h.1,
             by simpa [patchEvents, removeFold_elem] using h.2, rfl⟩
  | TextNode s ls =>
      have h := hsplit
        (pregs.foldl (fun t q => Tree.removeListener t q.1.name q.2)
          (Tree.TextNode s ls))
        (by rw [removeFold_text]; simp [Tree.strip])
        (by rw [removeFold_text]; simp [Tree.rootListeners])
      exact ⟨rfl, by simpa [patchEvents, removeFold_text] using h.1,
             by simpa [patchEvents, removeFold_text] using h.2, rfl⟩

mutual

/-- Hydration never changes the observable structure of the live tree, at
any node. -/
theorem hydrate_strip {msg : Type} (h : Html msg) (t : Tree) (c : Nat) :
    ((hydrate h t c).2.1).strip = t.strip := by
  cases h with
  | Text s => simp [hydrate]
  | Node tag ch evs regs attrs =>
      cases t with
      | TextNode s ls =>
          have ht1 := addFold_text
            (evs.enum.map (fun p => ((p.2 : Event msg), c + p.1))) s ls
          simp only [hydrate, ht1, Tree.strip]
      | Elem tg a cl pp ls tch =>
          have ht1 := addFold_elem
            (evs.enum.map (fun p => ((p.2 : Event msg), c + p.1)))
            tg a cl pp ls tch
          simp only [hydrate, ht1, Tree.strip]
          rw [hydrateChildren_strip ch tch (c + evs.length)]

/-- Hydration never changes the observable structure of a list of live
children. -/
theorem hydrateChildren_strip {msg : Type} (hs : List (Html msg))
    (ts : List Tree) (c : Nat) :
    Tree.stripList ((hydrateChildren hs ts c).2.1) = Tree.stripList ts := by
  match hs, ts with
  | [], ts => simp [hydrateChildren]
  | h :: rest, [] => simp [hydrateChildren]
  | h :: rest, t :: ts =>
      simp only [hydrateChildren, Tree.stripList]
      rw [hydrate_strip h t c,
          hydrateChildren_strip rest ts ((hydrate h t c).2.2)]

end

/-- C7: hydration never creates, removes or patches live structure,
attributes or text content (the stripped tree is unchanged at every node);
on a text AST node it is a complete no-op; on an element AST node it
attaches exactly one fresh one-shot listener per event descriptor,
recording each pairing into that node's listener registration, and
preserves the live child count (it recurses by index and skips indices
with no live child). -/
theorem hydrate_attaches_listeners_only {msg : Type} :
    (∀ (h : Html msg) (t : Tree) (c : Nat),
      ((hydrate h t c).2.1).strip = t.strip) ∧
    (∀ (s : String) (t : Tree) (c : Nat),
      hydrate (Html.Text s : Html msg) t c = (.Text s, t, c)) ∧
    (∀ (tag : Tag) (ch : List (Html msg)) (evs : List (Event msg))
       (regs : List (Event msg × Nat)) (attrs : List Attribute)
       (t : Tree) (c : Nat),
      ((hydrate (.Node tag ch evs regs attrs) t c).2.1).rootListeners =
        t.rootListeners ++
          evs.enum.map (fun p => ⟨p.2.name, c + p.1, true⟩) ∧
      ((hydrate (.Node tag ch evs regs attrs) t c).1).rootRegs =
        regs ++ evs.enum.map (fun p => (p.2, c + p.1)) ∧
      ((hydrate (.Node tag ch evs regs attrs) t c).2.1).childNodes.length =
        t.childNodes.length) := by
  refine ⟨hydrate_strip, fun s t c => by simp [hydrate], ?_⟩
  intro tag ch evs regs attrs t c
  cases t with
  | TextNode s ls =>
      have ht1 := addFold_text
        (evs.enum.map (fun p => ((p.2 : Event msg), c + p.1))) s ls
      refine ⟨?_, ?_, ?_⟩ <;>
        simp [hydrate, ht1, Tree.rootListeners, Html.rootRegs,
              Tree.childNodes, List.map_map]
  | Elem tg a cl pp ls tch =>
      have ht1 := addFold_elem
        (evs.enum.map (fun p => ((p.2 : Event msg), c + p.1)))
        tg a cl pp ls tch
      have hlen : ((hydrateChildren ch tch (c + evs.length)).2.1).length =
          tch.length := by
        have hs := hydrateChildren_strip ch tch (c + evs.length)
        have h1 : ∀ l : List Tree, (Tree.stripList l).length = l.length := by
          intro l
          induction l with
          | nil => rfl
          | cons x xs ih => simp [Tree.stripList, ih]
        calc ((hydrateChildren ch tch (c + evs.length)).2.1).length
            = (Tree.stripList ((hydrateChildren ch tch (c + evs.length)).2.1)).length :=
              (h1 _).symm
          _ = (Tree.stripList tch).length := by rw [hs]
          _ = tch.length := h1 _
      refine ⟨?_, ?_, ?_⟩ <;>
        simp [hydrate, ht1, Tree.rootListeners, Html.rootRegs,
              Tree.childNodes, List.map_map, hlen]

/-- Two attributes of a key-nodup list with the same key are the same
attribute. -/
theorem key_inj {l : List Attribute} (hn : (l.map Attribute.key).Nodup)
    {a b : Attribute} (ha : a ∈ l) (hb : b ∈ l) (hk : a.key = b.key) :
    a = b := by
  induction l with
  | nil => cases ha
  | cons x xs ih =>
      rw [List.map_cons, List.nodup_cons] at hn
      rcases List.mem_cons.mp ha with rfl | ha2
      · rcases List.mem_cons.mp hb with rfl | hb2
        · rfl
        · exact absurd (hk ▸ List.mem_map_of_mem Attribute.key hb2) hn.1
      · rcases List.mem_cons.mp hb with rfl | hb2
        · exact absurd (hk ▸ List.mem_map_of_mem Attribute.key ha2) hn.1
        · exact ih hn.2 ha2 hb2

/-- The previous attributes used in the spec's attribute-convergence
example: `{a: "1", b: "2"}`. -/
def prevAttrsEx : List Attribute :=
  [.StringAttribute "a" "1", .StringAttribute "b" "2"]

/-- The next attributes used in the spec's attribute-convergence example:
`{b: "2", c: "3"}`. -/
def nextAttrsEx : List Attribute :=
  [.StringAttribute "b" "2", .StringAttribute "c" "3"]

/-- A live div element carrying the previous attributes
`{a: "1", b: "2"}`. -/
def attrTreeEx : Tree := .Elem "DIV" [("a", "1"), ("b", "2")] [] [] [] []

/-- C2: attribute reconciliation between two element views with duplicate-
free attribute keys behaves as the symmetric difference: a key present in
both views is written only when the values differ (by kind and value); a
key only in the next view is set; a key only in the previous view is
removed, and never set.  On the spec's example (previous `{a: "1", b: "2"}`,
next `{b: "2", c: "3"}`) the live element's resulting attribute set is
exactly `{b: "2", c: "3"}` and no call touches `b`. -/
theorem patchAttributes_symmetric_difference {msg : Type}
    (ptag ntag : Tag) (pch nch : List (Html msg)) (pev nev : List (Event msg))
    (pregs nregs : List (Event msg × Nat)) (pa na : List Attribute)
    (hpa : (pa.map Attribute.key).Nodup) (hna : (na.map Attribute.key).Nodup) :
    (∀ a ∈ na, ∀ b ∈ pa, a.key = b.key → attrValuesEq a b = true →
      ∀ op ∈ patchAttributesOps (Html.Node ptag pch pev pregs pa)
          (Html.Node ntag nch nev nregs na), op.opKey ≠ a.key) ∧
    (∀ a ∈ na, ∀ b ∈ pa, a.key = b.key → attrValuesEq a b = false →
      AttrOp.set a ∈ patchAttributesOps (Html.Node ptag pch pev pregs pa)
          (Html.Node ntag nch nev nregs na)) ∧
    (∀ a ∈ na, (∀ b ∈ pa, a.key ≠ b.key) →
      AttrOp.set a ∈ patchAttributesOps (Html.Node ptag pch pev pregs pa)
          (Html.Node ntag nch nev nregs na)) ∧
    (∀ b ∈ pa, (∀ a ∈ na, a.key ≠ b.key) →
      AttrOp.remove b.key ∈ patchAttributesOps (Html.Node ptag pch pev pregs pa)
          (Html.Node ntag nch nev nregs na) ∧
      ∀ a, AttrOp.set a ∈ patchAttributesOps (Html.Node ptag pch pev pregs pa)
          (Html.Node ntag nch nev nregs na) → a.key ≠ b.key) ∧
    (patchAttributes (Html.Node .div [] [] [] prevAttrsEx : Html Message)
        (Html.Node .div [] [] [] nextAttrsEx) attrTreeEx =
      some (.Elem "DIV" [("b", "2"), ("c", "3")] [] [] [] []) ∧
     ∀ op ∈ patchAttributesOps
         (Html.Node .div [] [] [] prevAttrsEx : Html Message)
         (Html.Node .div [] [] [] nextAttrsEx), op.opKey ≠ "b") := by
  have hcontains : ∀ (l : List Attribute) (k : String),
      (l.map Attribute.key).contains k = true ↔ ∃ b ∈ l, b.key = k := by
    intro l k
    simp [List.contains_iff_exists_mem_beq, beq_iff_eq, eq_comm]
  have hmem : ∀ op : AttrOp,
      op ∈ patchAttributesOps (Html.Node ptag pch pev pregs pa)
          (Html.Node ntag nch nev nregs na) ↔
        (∃ a ∈ na, op ∈
          (if (pa.map Attribute.key).contains a.key then
            match pa.find? (fun b => b.key == a.key) with
            | some b => if attrValuesEq a b then [] else [AttrOp.set a]
            | none => []
          else [AttrOp.set a])) ∨
        (∃ b ∈ pa, op ∈
          (if (na.map Attribute.key).contains b.key then []
           else [AttrOp.remove b.key])) := by
    intro op
    simp only [patchAttributesOps, List.mem_append, List.mem_flatMap]
  refine ⟨?_, ?_, ?_, ?_, ⟨by rfl, by decide⟩⟩
  · intro a ha b hb hk hv op hop
    rcases (hmem op).mp hop with ⟨a2, ha2, hopf⟩ | ⟨b2, hb2, hopg⟩
    · by_cases hc : (pa.map Attribute.key).contains a2.key = true
      · rcases (hcontains pa a2.key).mp hc with ⟨b3, hb3, hb3k⟩
        have hfind : (pa.find? (fun x => x.key == a2.key)).isSome := by
          rw [List.find?_isSome]
          exact ⟨b3, hb3, by simp [hb3k]⟩
        obtain ⟨b4, hb4⟩ := Option.isSome_iff_exists.mp hfind
        have hb4mem := List.mem_of_find?_eq_some hb4
        have hb4key : b4.key = a2.key := by
          have := List.find?_some hb4
          simpa [beq_iff_eq] using this
        simp only [hc, if_true] at hopf
        rw [hb4] at hopf
        by_cases hveq : attrValuesEq a2 b4 = true
        · simp [hveq] at hopf
        · simp [hveq] at hopf
          subst hopf
          simp only [AttrOp.opKey]
          intro hkk
          have ha2a : a2 = a := key_inj hna ha2 ha hkk
          subst ha2a
          have hb4b : b4 = b := key_inj hpa hb4mem hb (hb4key.trans (hkk.trans hk))
          subst hb4b
          exact hveq hv
      · simp only [hc, if_false] at hopf
        simp at hopf
        subst hopf
        simp only [AttrOp.opKey]
        intro hkk
        exact hc ((hcontains pa a2.key).mpr ⟨b, hb, (hkk.trans hk).symm⟩)
    · by_cases hc : (na.map Attribute.key).contains b2.key = true
      · rw [if_pos hc] at hopg
        cases hopg
      · rw [if_neg hc] at hopg
        simp at hopg
        subst hopg
        simp only [AttrOp.opKey]
        intro hkk
        exact hc ((hcontains na b2.key).mpr ⟨a, ha, hkk.symm⟩)
  · intro a ha b hb hk hv
    refine (hmem (AttrOp.set a)).mpr (Or.inl ⟨a, ha, ?_⟩)
    have hc : (pa.map Attribute.key).contains a.key = true :=
      (hcontains pa a.key).mpr ⟨b, hb, hk.symm⟩
    have hfind : (pa.find? (fun x => x.key == a.key)).isSome := by
      rw [List.find?_isSome]
      exact ⟨b, hb, by simp [hk]⟩
    obtain ⟨b4, hb4⟩ := Option.isSome_iff_exists.mp hfind
    have hb4mem := List.mem_of_find?_eq_some hb4
    have hb4key : b4.key = a.key := by
      have := List.find?_some hb4
      simpa [beq_iff_eq] using this
    have hb4b : b4 = b := key_inj hpa hb4mem hb (hb4key.trans hk)
    subst hb4b
    simp [hc, hb4, hv]
  · intro a ha hnone
    refine (hmem (AttrOp.set a)).mpr (Or.inl ⟨a, ha, ?_⟩)
    have hno : ¬((pa.map Attribute.key).contains a.key = true) := by
      rw [hcontains pa a.key]
      rintro ⟨b, hb, hbk⟩
      exact hnone b hb hbk.symm
    rw [if_neg hno]
    exact List.mem_singleton.mpr rfl
  · intro b hb hnone
    have hno : ¬((na.map Attribute.key).contains b.key = true) := by
      rw [hcontains na b.key]
      rintro ⟨a, ha, hak⟩
      exact hnone a ha hak
    constructor
    · refine (hmem (AttrOp.remove b.key)).mpr (Or.inr ⟨b, hb, ?_⟩)
      rw [if_neg hno]
      exact List.mem_singleton.mpr rfl
    · intro a hset
      rcases (hmem (AttrOp.set a)).mp hset with ⟨a2, ha2, hopf⟩ | ⟨b2, hb2, hopg⟩
      · have haa2 : a = a2 := by
          split at hopf
          · split at hopf
            · split at hopf
              · cases hopf
              · simpa using hopf
            · cases hopf
          · simpa using hopf
        rw [haa2]
        exact hnone a2 ha2
      · split at hopg
        · cases hopg
        · have := List.mem_singleton.mp hopg
          cases this

/-- Witness for C2 at the spec's concrete example: previous `{a: "1",
b: "2"}`, next `{b: "2", c: "3"}` - the live attribute set converges to
exactly `{b: "2", c: "3"}`, with no call touching `b`. -/
theorem patchAttributes_symmetric_difference_witness :
    patchAttributes (Html.Node .div [] [] [] prevAttrsEx : Html Message)
        (Html.Node .div [] [] [] nextAttrsEx) attrTreeEx =
      some (.Elem "DIV" [("b", "2"), ("c", "3")] [] [] [] []) ∧
    ∀ op ∈ patchAttributesOps
        (Html.Node .div [] [] [] prevAttrsEx : Html Message)
        (Html.Node .div [] [] [] nextAttrsEx), op.opKey ≠ "b" :=
  (@patchAttributes_symmetric_difference Message .div .div [] [] [] []
    [] [] prevAttrsEx nextAttrsEx (by decide) (by decide)).2.2.2.2

/-- Strict equality of an attribute value with itself. -/
theorem attrValuesEq_refl (a : Attribute) : attrValuesEq a a = true := by
  cases a <;> simp [attrValuesEq]

/-- Diffing an attribute list with duplicate-free keys against itself
issues no DOM attribute call: every next attribute finds itself as the
first previous attribute with its key, with an equal value. -/
theorem patchAttributesOps_self_nodup {msg : Type}
    (ptag ntag : Tag) (pch nch : List (Html msg)) (pev nev : List (Event msg))
    (pregs nregs : List (Event msg × Nat)) (attrs : List Attribute)
    (hn : (attrs.map Attribute.key).Nodup) :
    patchAttributesOps (Html.Node ptag pch pev pregs attrs)
        (Html.Node ntag nch nev nregs attrs) = [] := by
  simp only [patchAttributesOps, List.append_eq_nil, List.flatMap_eq_nil_iff]
  constructor
  · intro a ha
    have hc : (attrs.map Attribute.key).contains a.key = true := by
      simp only [List.contains_iff_exists_mem_beq]
      exact ⟨a.key, List.mem_map_of_mem Attribute.key ha, by simp⟩
    rw [if_pos hc]
    have hfind : (attrs.find? (fun x => x.key == a.key)).isSome := by
      rw [List.find?_isSome]
      exact ⟨a, ha, by simp⟩
    obtain ⟨b4, hb4⟩ := Option.isSome_iff_exists.mp hfind
    have hb4mem := List.mem_of_find?_eq_some hb4
    have hb4key : b4.key = a.key := by
      have := List.find?_some hb4
      simpa [beq_iff_eq] using this
    have hb4a : b4 = a := key_inj hn hb4mem ha hb4key
    subst hb4a
    simp [hb4, attrValuesEq_refl]
  · intro b hb
    have hc : (attrs.map Attribute.key).contains b.key = true := by
      simp only [List.contains_iff_exists_mem_beq]
      exact ⟨b.key, List.mem_map_of_mem Attribute.key hb, by simp⟩
    rw [if_pos hc]

/-- Applying `setAttribute` on an element can change only the attribute map, the
class list and the property table: tag name, listeners and children are
untouched. -/
theorem setAttribute_shape {tg : String} {a : List (String × String)}
    {cl : List String} {pp : List (String × PropVal)}
    {ls : List ListenerRec} {ch : List Tree} {attr : Attribute} {t : Tree}
    (h : setAttribute (.Elem tg a cl pp ls ch) attr = some t) :
    ∃ a2 cl2 pp2, t = .Elem tg a2 cl2 pp2 ls ch := by
  cases attr with
  | BooleanAttribute k v =>
      simp only [setAttribute, Attribute.key] at h
      split at h
      · cases h
      · split at h
        · exact ⟨_, _, _, (Option.some_inj.mp h).symm⟩
        · split at h
          · exact ⟨_, _, _, (Option.some_inj.mp h).symm⟩
          · split at h
            · exact ⟨_, _, _, (Option.some_inj.mp h).symm⟩
            · exact ⟨a, cl, pp, (Option.some_inj.mp h).symm⟩
  | StringAttribute k v =>
      simp only [setAttribute, Attribute.key] at h
      split at h
      · split at h
        · cases h
        · exact ⟨_, _, _, (Option.some_inj.mp h).symm⟩
      · split at h
        · exact ⟨_, _, _, (Option.some_inj.mp h).symm⟩
        · exact ⟨_, _, _, (Option.some_inj.mp h).symm⟩

/-- Applying `setAttributesAll` preserves tag name, listeners and children. -/
theorem setAttributesAll_shape {tg : String} {a : List (String × String)}
    {cl : List String} {pp : List (String × PropVal)}
    {ls : List ListenerRec} {ch : List Tree} {attrs : List Attribute}
    {t : Tree}
    (h : setAttributesAll (.Elem tg a cl pp ls ch) attrs = some t) :
    ∃ a2 cl2 pp2, t = .Elem tg a2 cl2 pp2 ls ch := by
  induction attrs generalizing a cl pp t with
  | nil =>
      exact ⟨a, cl, pp, (Option.some_inj.mp h).symm⟩
  | cons x xs ih =>
      unfold setAttributesAll at h
      split at h
      · cases h
      · rename_i t1 h1
        obtain ⟨a2, cl2, pp2, rfl⟩ := setAttribute_shape h1
        exact ih h

/-- Unfolding `patch` in the same-tag element case. -/
theorem patch_same_tag_eq {msg : Type} (ptag : Tag) (pch nch : List (Html msg))
    (pev nev : List (Event msg)) (pregs nregs : List (Event msg × Nat))
    (pattrs nattrs : List Attribute) (t : Tree) (c : Nat) :
    patch (.Node ptag pch pev pregs pattrs) (.Node ptag nch nev nregs nattrs) t c =
      (match patchAttributes (.Node ptag pch pev pregs pattrs)
          (patchEvents (.Node ptag pch pev pregs pattrs)
            (.Node ptag nch nev nregs nattrs) t c).1
          (patchEvents (.Node ptag pch pev pregs pattrs)
            (.Node ptag nch nev nregs nattrs) t c).2.1 with
       | none => none
       | some t2 =>
         match t2 with
         | .TextNode s ls =>
             if nch.isEmpty then
               some ⟨{ PatchStatus.zero with patched := 1 },
                     (patchEvents (.Node ptag pch pev pregs pattrs)
                       (.Node ptag nch nev nregs nattrs) t c).1,
                     .TextNode s ls,
                     (patchEvents (.Node ptag pch pev pregs pattrs)
                       (.Node ptag nch nev nregs nattrs) t c).2.2, []⟩
             else none
         | .Elem tg aa cl pp ls tch =>
             match patchChildren pch nch tch
                 (patchEvents (.Node ptag pch pev pregs pattrs)
                   (.Node ptag nch nev nregs nattrs) t c).2.2 with
             | none => none
             | some res =>
                 some ⟨⟨res.status.replaced, res.status.patched + 1,
                        res.status.removed + res.leftover.length,
                        res.status.added⟩,
                       ((patchEvents (.Node ptag pch pev pregs pattrs)
                         (.Node ptag nch nev nregs nattrs) t c).1).setChildren
                         res.asts,
                       .Elem tg aa cl pp ls res.processed,
                       res.counter,
                       res.removedNodes ++ res.leftover.reverse⟩) := by
  simp only [patch]
  rw [if_neg (by simp)]

/-- The child loop produces exactly one live child per next child, and the
excess live children it leaves for the removal loop are exactly the live
children at indices at or beyond the next child count. -/
theorem patchChildren_shape {msg : Type} (ns : List (Html msg)) :
    ∀ (ps : List (Html msg)) (ts : List Tree) (c : Nat)
      (res : ChildrenResult msg),
      patchChildren ps ns ts c = some res →
      res.processed.length = ns.length ∧ res.leftover = ts.drop ns.length := by
  induction ns with
  | nil =>
      intro ps ts c res h
      simp only [patchChildren] at h
      cases h
      exact ⟨rfl, rfl⟩
  | cons n ns2 ih =>
      intro ps ts c res h
      cases ts with
      | nil =>
          simp only [patchChildren] at h
          split at h
          · cases h
          · rename_i r hr
            split at h
            · cases h
            · rename_i res2 hres2
              cases h
              obtain ⟨h1, h2⟩ := ih ps.tail [] r.counter res2 hres2
              refine ⟨by simp [h1], by simpa using h2⟩
      | cons t ts2 =>
          cases ps with
          | nil => simp [patchChildren] at h
          | cons p ps2 =>
              simp only [patchChildren] at h
              split at h
              · cases h
              · rename_i pr hpr
                split at h
                · cases h
                · rename_i res2 hres2
                  cases h
                  obtain ⟨h1, h2⟩ := ih ps2 ts2 pr.counter res2 hres2
                  exact ⟨by simp [h1], by simpa using h2⟩

mutual

/-- Throughout a successful patch, the `removed` report field counts
exactly the nodes passed to `removeChild`. -/
theorem patch_removed_count {msg : Type} (p n : Html msg) (t : Tree) (c : Nat)
    (pr : PatchResult msg) (h : patch p n t c = some pr) :
    pr.status.removed = pr.removedNodes.length := by
  cases p with
  | Text pc =>
      cases n with
      | Text nc =>
          simp only [patch] at h
          split at h
          · cases h
            rfl
          · cases h
            rfl
      | Node ntag nch nev nregs nattrs =>
          simp only [patch] at h
          split at h
          · cases h
          · cases h
            rfl
  | Node ptag pch pev pregs pattrs =>
      cases n with
      | Text nc =>
          simp only [patch] at h
          cases h
          rfl
      | Node ntag nch nev nregs nattrs =>
          by_cases htag : ptag = ntag
          · subst htag
            rw [patch_same_tag_eq] at h
            generalize hpe : patchEvents (Html.Node ptag pch pev pregs pattrs)
              (Html.Node ptag nch nev nregs nattrs) t c = pe at h
            rcases hattrs : patchAttributes (Html.Node ptag pch pev pregs pattrs)
                pe.1 pe.2.1 with _ | t2 <;> rw [hattrs] at h
            · cases h
            · cases t2 with
              | TextNode s ls =>
                  have h2 : (if nch.isEmpty then
                      some (⟨{ PatchStatus.zero with patched := 1 }, pe.1,
                            Tree.TextNode s ls, pe.2.2, []⟩ : PatchResult msg)
                    else none) = some pr := h
                  by_cases hemp : nch.isEmpty
                  · rw [if_pos hemp] at h2
                    cases h2
                    rfl
                  · rw [if_neg hemp] at h2
                    cases h2
              | Elem tg aa cl pp ls tch =>
                  have h2 : (match patchChildren pch nch tch pe.2.2 with
                    | none => none
                    | some res =>
                        some (⟨⟨res.status.replaced, res.status.patched + 1,
                               res.status.removed + res.leftover.length,
                               res.status.added⟩,
                              pe.1.setChildren res.asts,
                              Tree.Elem tg aa cl pp ls res.processed,
                              res.counter,
                              res.removedNodes ++ res.leftover.reverse⟩ :
                          PatchResult msg)) = some pr := h
                  rcases hres : patchChildren pch nch tch pe.2.2 with _ | res <;>
                    rw [hres] at h2
                  · cases h2
                  · cases h2
                    have hrec := patchChildren_removed_count pch nch tch pe.2.2 res hres
                    simp [hrec]
          · simp only [patch] at h
            rw [if_pos htag] at h
            split at h
            · cases h
            · cases h
              rfl

/-- The child loop's accumulated `removed` count equals the number of
nodes its recursive patches removed. -/
theorem patchChildren_removed_count {msg : Type} (ps ns : List (Html msg))
    (ts : List Tree) (c : Nat) (res : ChildrenResult msg)
    (h : patchChildren ps ns ts c = some res) :
    res.status.removed = res.removedNodes.length := by
  cases ns with
  | nil =>
      simp only [patchChildren] at h
      cases h
      rfl
  | cons n ns2 =>
      cases ts with
      | nil =>
          simp only [patchChildren] at h
          split at h
          · cases h
          · rename_i r hr
            split at h
            · cases h
            · rename_i res2 hres2
              cases h
              have hrec := patchChildren_removed_count ps.tail ns2 [] r.counter res2 hres2
              simpa using hrec
      | cons t ts2 =>
          cases ps with
          | nil => simp [patchChildren] at h
          | cons p ps2 =>
              simp only [patchChildren] at h
              split at h
              · cases h
              · rename_i pr hpr
                split at h
                · cases h
                · rename_i res2 hres2
                  cases h
                  have h1 := patch_removed_count p n t c pr hpr
                  have h2 := patchChildren_removed_count ps2 ns2 ts2 pr.counter res2 hres2
                  simp [h1, h2]

end

/-- A successful attribute-call sequence on an element can change only the
attribute map, class list and property table. -/
theorem applyAttrOps_shape {tg : String} {a : List (String × String)}
    {cl : List String} {pp : List (String × PropVal)}
    {ls : List ListenerRec} {ch : List Tree} {ops : List AttrOp} {t : Tree}
    (h : applyAttrOps (.Elem tg a cl pp ls ch) ops = some t) :
    ∃ a2 cl2 pp2, t = .Elem tg a2 cl2 pp2 ls ch := by
  induction ops generalizing a cl pp t with
  | nil => exact ⟨a, cl, pp, (Option.some_inj.mp h).symm⟩
  | cons op rest ih =>
      simp only [applyAttrOps] at h
      split at h
      · cases h
      · rename_i t1 h1
        rcases op with a0 | k0
        · have h1b : setAttribute (.Elem tg a cl pp ls ch) a0 = some t1 := h1
          obtain ⟨a2, cl2, pp2, rfl⟩ := setAttribute_shape h1b
          exact ih h
        · have h1b : removeAttribute (.Elem tg a cl pp ls ch) k0 = some t1 := h1
          have hsh : ∃ a2 cl2 pp2, t1 = Tree.Elem tg a2 cl2 pp2 ls ch := by
            simp only [removeAttribute] at h1b
            split at h1b
            · exact ⟨_, _, _, (Option.some_inj.mp h1b).symm⟩
            · exact ⟨_, _, _, (Option.some_inj.mp h1b).symm⟩
          obtain ⟨a2, cl2, pp2, rfl⟩ := hsh
          exact ih h

/-- Unfolding `patch` in the same-tag element case once the event and
attribute phases are known to have produced an element. -/
theorem patch_same_tag_step {msg : Type} (tag : Tag)
    (pch nch : List (Html msg)) (pev nev : List (Event msg))
    (pregs nregs : List (Event msg × Nat)) (pattrs nattrs : List Attribute)
    (t : Tree) (c : Nat) (n1 : Html msg) (t1 : Tree) (c1 : Nat)
    (hpe : patchEvents (.Node tag pch pev pregs pattrs)
      (.Node tag nch nev nregs nattrs) t c = (n1, t1, c1))
    (tg2 : String) (aa2 : List (String × String)) (cl2 : List String)
    (pp2 : List (String × PropVal)) (ls2 : List ListenerRec)
    (tch2 : List Tree)
    (hattrs : patchAttributes (.Node tag pch pev pregs pattrs) n1 t1 =
      some (.Elem tg2 aa2 cl2 pp2 ls2 tch2)) :
    patch (.Node tag pch pev pregs pattrs) (.Node tag nch nev nregs nattrs) t c =
      match patchChildren pch nch tch2 c1 with
      | none => none
      | some res =>
          some ⟨⟨res.status.replaced, res.status.patched + 1,
                 res.status.removed + res.leftover.length, res.status.added⟩,
                n1.setChildren res.asts,
                .Elem tg2 aa2 cl2 pp2 ls2 res.processed,
                res.counter,
                res.removedNodes ++ res.leftover.reverse⟩ := by
  rw [patch_same_tag_eq, hpe]
  dsimp only []
  rw [hattrs]

/-- C1: patching two element views with the same tag against a live
element: the resulting live element has exactly one child per next-view
child, so every live child at index at or beyond `len(next.children)` has
been removed; the removal loop's victims are exactly the original live
children from index `len(next.children)` on (taken from the end down); and
the report's `removed` field counts exactly the removals performed. -/
theorem patch_prunes_trailing_children {msg : Type}
    (tag : Tag) (pch nch : List (Html msg)) (pev nev : List (Event msg))
    (pregs nregs : List (Event msg × Nat)) (pattrs nattrs : List Attribute)
    (tg : String) (aa : List (String × String)) (cl : List String)
    (pp : List (String × PropVal)) (ls : List ListenerRec) (tch : List Tree)
    (c : Nat) (pr : PatchResult msg)
    (h : patch (.Node tag pch pev pregs pattrs)
      (.Node tag nch nev nregs nattrs) (.Elem tg aa cl pp ls tch) c =
      some pr) :
    pr.tree.childNodes.length = nch.length ∧
    pr.status.removed = pr.removedNodes.length ∧
    ∃ rest, pr.removedNodes = rest ++ (tch.drop nch.length).reverse := by
  have hrem := patch_removed_count _ _ _ _ _ h
  have hpe : patchEvents (.Node tag pch pev pregs pattrs)
      (.Node tag nch nev nregs nattrs) (.Elem tg aa cl pp ls tch) c =
      (.Node tag nch nev (nregs ++ nev.enum.map (fun p => (p.2, c + p.1)))
         nattrs,
       .Elem tg aa cl pp
         (ls.filter (survives pregs) ++
           (nev.enum.map (fun p => ((p.2 : Event msg), c + p.1))).map
             (fun q => ⟨q.1.name, q.2, true⟩)) tch,
       c + nev.length) := by
    simp [patchEvents, removeFold_elem, addFold_elem]
  rw [patch_same_tag_eq, hpe] at h
  dsimp only [] at h
  rcases hattrs : patchAttributes (Html.Node tag pch pev pregs pattrs)
      (Html.Node tag nch nev
        (nregs ++ nev.enum.map (fun p => (p.2, c + p.1))) nattrs)
      (Tree.Elem tg aa cl pp
        (ls.filter (survives pregs) ++
          (nev.enum.map (fun p => ((p.2 : Event msg), c + p.1))).map
            (fun q => ⟨q.1.name, q.2, true⟩)) tch) with _ | t2
  · rw [hattrs] at h
    cases h
  · have hsh : ∃ a2 cl2 pp2, t2 = Tree.Elem tg a2 cl2 pp2
        (ls.filter (survives pregs) ++
          (nev.enum.map (fun p => ((p.2 : Event msg), c + p.1))).map
            (fun q => ⟨q.1.name, q.2, true⟩)) tch :=
      applyAttrOps_shape hattrs
    obtain ⟨a2, cl2, pp2, rfl⟩ := hsh
    rw [hattrs] at h
    rcases hres : patchChildren pch nch tch (c + nev.length) with _ | res <;>
      simp only [hres] at h
    · cases h
    · cases h
      obtain ⟨hlen, hleft⟩ := patchChildren_shape nch pch tch (c + nev.length)
        res hres
      refine ⟨by simpa [Tree.childNodes] using hlen, hrem, res.removedNodes, ?_⟩
      rw [hleft]

/-- Witness for C1 at concrete inputs: previous children `a, b, c`, next
children `a`, live children `a, b, c` - the result keeps one child, the two
trailing children are removed from the end down, and `removed = 2` counts
them. -/
theorem patch_prunes_trailing_children_witness :
    ∃ pr : PatchResult Message,
      patch (.Node .div [.Text "a", .Text "b", .Text "c"] [] [] [])
        (.Node .div [.Text "a"] [] [] [])
        (.Elem "DIV" [] [] [] []
          [.TextNode "a" [], .TextNode "b" [], .TextNode "c" []]) 0 =
        some pr ∧
      pr.tree.childNodes.length = 1 ∧
      pr.status.removed = pr.removedNodes.length ∧
      ∃ rest, pr.removedNodes =
        rest ++ [Tree.TextNode "c" [], Tree.TextNode "b" []] := by
  refine ⟨_, rfl, ?_⟩
  have h := @patch_prunes_trailing_children Message .div
    [.Text "a", .Text "b", .Text "c"] [.Text "a"] [] [] [] [] [] []
    "DIV" [] [] [] [] [.TextNode "a" [], .TextNode "b" [], .TextNode "c" []]
    0 _ rfl
  simpa using h

/-- The effect of `patchEvents` between two element views on a live
element, in closed form. -/
theorem patchEvents_elem {msg : Type} (ptag ntag : Tag)
    (pch nch : List (Html msg)) (pev nev : List (Event msg))
    (pregs nregs : List (Event msg × Nat)) (pattrs nattrs : List Attribute)
    (tg : String) (aa : List (String × String)) (cl : List String)
    (pp : List (String × PropVal)) (ls : List ListenerRec) (tch : List Tree)
    (c : Nat) :
    patchEvents (.Node ptag pch pev pregs pattrs)
      (.Node ntag nch nev nregs nattrs) (.Elem tg aa cl pp ls tch) c =
      (.Node ntag nch nev
         (nregs ++ nev.enum.map (fun p => (p.2, c + p.1))) nattrs,
       .Elem tg aa cl pp
         (ls.filter (survives pregs) ++
           (nev.enum.map (fun p => ((p.2 : Event msg), c + p.1))).map
             (fun q => ⟨q.1.name, q.2, true⟩)) tch,
       c + nev.length) := by
  simp [patchEvents, removeFold_elem, addFold_elem]

/-- The executable key-duplicate check implies `Nodup`. -/
theorem nodupKeysB_nodup {l : List String} (h : nodupKeysB l = true) :
    l.Nodup := by
  induction l with
  | nil => simp
  | cons k ks ih =>
      rw [nodupKeysB, Bool.and_eq_true, Bool.not_eq_true'] at h
      refine List.nodup_cons.mpr ⟨fun hmem => ?_, ih h.2⟩
      have hc : ks.contains k = true :=
        List.contains_iff_exists_mem_beq.mpr ⟨k, hmem, by simp⟩
      rw [h.1] at hc
      cases hc

mutual

/-- Self-patching a freshly built tree (duplicate-free attribute keys):
the patch succeeds, counts one `patched` per element and nothing else, and
leaves the observable structure unchanged. -/
theorem patch_self_aux {msg : Type} (A : Html msg) (c : Nat)
    (r : BuildResult msg) (hn : noDupAttrKeys A = true)
    (hb : buildTree A c = some r) (d : Nat) :
    ∃ pr, patch r.ast r.ast r.tree d = some pr ∧
      pr.status = ⟨0, elemCount A, 0, 0⟩ ∧
      pr.tree.strip = r.tree.strip ∧
      pr.removedNodes = [] := by
  cases A with
  | Text s =>
      simp only [buildTree] at hb
      cases hb
      exact ⟨⟨.zero, .Text s, .TextNode s [], d, []⟩, by simp [patch],
             by simp [PatchStatus.zero, elemCount], rfl, rfl⟩
  | Node tag ch evs regs attrs =>
      simp only [buildTree] at hb
      split at hb
      · cases hb
      · rename_i ch2 trees c2 hbt
        split at hb
        · cases hb
        · rename_i e hsa
          cases hb
          obtain ⟨a2, cl2, pp2, rfl⟩ := setAttributesAll_shape hsa
          simp only [noDupAttrKeys, Bool.and_eq_true] at hn
          obtain ⟨hn1, hn2⟩ := hn
          have hnd : (attrs.map Attribute.key).Nodup := nodupKeysB_nodup hn1
          have hops := @patchAttributesOps_self_nodup msg tag tag
            ch2 ch2 evs evs
            (regs ++ evs.enum.map (fun p => (p.2, c + p.1)))
            ((regs ++ evs.enum.map (fun p => (p.2, c + p.1))) ++
              evs.enum.map (fun p => (p.2, d + p.1)))
            attrs hnd
          have hattrs : patchAttributes
              (Html.Node tag ch2 evs
                (regs ++ evs.enum.map (fun p => (p.2, c + p.1))) attrs)
              (Html.Node tag ch2 evs
                ((regs ++ evs.enum.map (fun p => (p.2, c + p.1))) ++
                  evs.enum.map (fun p => (p.2, d + p.1))) attrs)
              (Tree.Elem tag.toTagName a2 cl2 pp2
                ((((evs.enum.map (fun p => ((p.2 : Event msg), c + p.1))).map
                    (fun q => ⟨q.1.name, q.2, true⟩)).filter
                  (survives (regs ++ evs.enum.map (fun p => (p.2, c + p.1))))) ++
                  (evs.enum.map (fun p => ((p.2 : Event msg), d + p.1))).map
                    (fun q => ⟨q.1.name, q.2, true⟩)) trees) =
              some (Tree.Elem tag.toTagName a2 cl2 pp2
                ((((evs.enum.map (fun p => ((p.2 : Event msg), c + p.1))).map
                    (fun q => ⟨q.1.name, q.2, true⟩)).filter
                  (survives (regs ++ evs.enum.map (fun p => (p.2, c + p.1))))) ++
                  (evs.enum.map (fun p => ((p.2 : Event msg), d + p.1))).map
                    (fun q => ⟨q.1.name, q.2, true⟩)) trees) := by
            show applyAttrOps _ (patchAttributesOps _ _) = _
            rw [hops]
            rfl
          have hstep := patch_same_tag_step tag ch2 ch2 evs evs
            (regs ++ evs.enum.map (fun p => (p.2, c + p.1)))
            (regs ++ evs.enum.map (fun p => (p.2, c + p.1)))
            attrs attrs
            (Tree.Elem tag.toTagName a2 cl2 pp2
              ((evs.enum.map (fun p => ((p.2 : Event msg), c + p.1))).map
                (fun q => ⟨q.1.name, q.2, true⟩)) trees) d
            _ _ _ (patchEvents_elem _ _ _ _ _ _ _ _ _ _ _ _ _ _ _ _ _)
            _ _ _ _ _ _ hattrs
          obtain ⟨res, hres, hstat, hstrip, hleft, hrems⟩ :=
            patchChildren_self_aux ch (c + evs.length) ch2 trees c2 hn2 hbt
              (d + evs.length)
          refine ⟨_, by rw [hstep, hres], ?_, ?_, ?_⟩
          · rw [hstat, hleft]
            simp [elemCount]
            omega
          · simp only [Tree.strip]
            rw [hstrip]
          · rw [hrems, hleft]
            rfl

/-- Self-patching a freshly built list of sibling trees. -/
theorem patchChildren_self_aux {msg : Type} (l : List (Html msg)) (c : Nat)
    (l2 : List (Html msg)) (ts : List Tree) (c2 : Nat)
    (hn : noDupAttrKeysList l = true)
    (hb : buildTrees l c = some (l2, ts, c2)) (d : Nat) :
    ∃ res, patchChildren l2 l2 ts d = some res ∧
      res.status = ⟨0, elemCountList l, 0, 0⟩ ∧
      Tree.stripList res.processed = Tree.stripList ts ∧
      res.leftover = [] ∧ res.removedNodes = [] := by
  cases l with
  | nil =>
      simp only [buildTrees] at hb
      cases hb
      exact ⟨⟨.zero, [], [], [], d, []⟩, by simp [patchChildren],
             by simp [PatchStatus.zero, elemCountList], rfl, rfl, rfl⟩
  | cons h rest =>
      simp only [buildTrees] at hb
      split at hb
      · cases hb
      · rename_i r1 hb1
        rcases hb2 : buildTrees rest r1.counter with _ | ⟨asts, trees, c3⟩ <;>
          simp only [hb2] at hb
        · cases hb
        · cases hb
          simp only [noDupAttrKeysList, Bool.and_eq_true] at hn
          obtain ⟨hnh, hnr⟩ := hn
          obtain ⟨pr1, hp1, hps, hpstrip, hprem⟩ :=
            patch_self_aux h c r1 hnh hb1 d
          obtain ⟨res2, h2, hqs, hqstrip, hqleft, hqrem⟩ :=
            patchChildren_self_aux rest r1.counter asts trees c2 hnr hb2
              pr1.counter
          have hpc : patchChildren (r1.ast :: asts) (r1.ast :: asts)
              (r1.tree :: trees) d =
              some ⟨⟨pr1.status.replaced + res2.status.replaced,
                     pr1.status.patched + res2.status.patched,
                     pr1.status.removed + res2.status.removed,
                     pr1.status.added + res2.status.added⟩,
                    pr1.nextAst :: res2.asts, pr1.tree :: res2.processed,
                    res2.leftover, res2.counter,
                    pr1.removedNodes ++ res2.removedNodes⟩ := by
            simp only [patchChildren, hp1, h2]
          refine ⟨_, hpc, ?_, ?_, hqleft, ?_⟩
          · rw [hps, hqs]
            simp [elemCountList]
          · simp only [Tree.stripList]
            rw [hpstrip, hqstrip]
          · rw [hprem, hqrem]
            rfl

end

/-- C5 (amended): for every AST whose elements have duplicate-free
attribute keys, patching the AST against itself on a tree freshly built
from it succeeds, returns a report counting exactly one `patched` per
element node and zero `replaced`, `added` and `removed`, removes no node,
and leaves the live tree's observable structure equal to the built
tree's.  (Without the duplicate-free restriction the structure-preservation
part fails, see the counterexample.) -/
theorem patch_self_idempotent {msg : Type} (A : Html msg) (c : Nat)
    (r : BuildResult msg) (hn : noDupAttrKeys A = true)
    (hb : buildTree A c = some r) (d : Nat) :
    ∃ pr, patch r.ast r.ast r.tree d = some pr ∧
      pr.status = ⟨0, elemCount A, 0, 0⟩ ∧
      pr.tree.strip = r.tree.strip ∧
      pr.removedNodes = [] :=
  patch_self_aux A c r hn hb d

/-- Witness for C5 (amended) at a concrete AST `div [text "hi"]` with
attribute `id="x"`. -/
theorem patch_self_idempotent_witness :
    ∃ r pr,
      buildTree (Html.Node .div [.Text "hi"] [] []
          [.StringAttribute "id" "x"] : Html Message) 0 =
        some r ∧
      patch r.ast r.ast r.tree r.counter = some pr ∧
      pr.status = ⟨0, 1, 0, 0⟩ ∧
      pr.tree.strip = r.tree.strip ∧ pr.removedNodes = [] := by
  obtain ⟨pr, h1, h2, h3, h4⟩ := @patch_self_idempotent Message
    (.Node .div [.Text "hi"] [] [] [.StringAttribute "id" "x"]) 0
    ⟨.Node .div [.Text "hi"] [] [] [.StringAttribute "id" "x"],
     .Elem "DIV" [("id", "x")] [] [] [] [.TextNode "hi" []], 0⟩
    (by decide) rfl 0
  exact ⟨_, pr, rfl, h1, by rw [h2]; rfl, h3, h4⟩

/-- Counterexample to C5 as stated: for the element `div` with duplicate
attribute keys `k="1", k="2", k="1"`, self-patching the freshly built tree
succeeds with the expected counts but changes the live attribute set: the
built tree carries `k="1"` (last write wins during build), while the
reconciliation rewrites it to `k="2"`, because each next attribute is
compared against the FIRST previous attribute with its key.  The live
tree's observable structure is therefore not preserved. -/
theorem patch_self_duplicate_keys_counterexample :
    ∃ r pr,
      buildTree (Html.Node .div [] [] [] [.StringAttribute "k" "1",
          .StringAttribute "k" "2", .StringAttribute "k" "1"] :
        Html Message) 0 = some r ∧
      patch r.ast r.ast r.tree r.counter = some pr ∧
      pr.status = ⟨0, 1, 0, 0⟩ ∧
      pr.tree.strip ≠ r.tree.strip := by
  refine ⟨⟨.Node .div [] [] [] [.StringAttribute "k" "1",
      .StringAttribute "k" "2", .StringAttribute "k" "1"],
    .Elem "DIV" [("k", "1")] [] [] [] [], 0⟩,
    ⟨⟨0, 1, 0, 0⟩,
     .Node .div [] [] [] [.StringAttribute "k" "1",
       .StringAttribute "k" "2", .StringAttribute "k" "1"],
     .Elem "DIV" [("k", "2")] [] [] [] [], 0, []⟩,
    rfl, rfl, rfl, ?_⟩
  intro h
  simp [Tree.strip, Tree.stripList] at h

mutual

/-- Building populates only the listener registration of the AST: the
value part is unchanged. -/
theorem buildTree_stripRegs {msg : Type} (A : Html msg) (c : Nat)
    (r : BuildResult msg) (h : buildTree A c = some r) :
    r.ast.stripRegs = A.stripRegs := by
  cases A with
  | Text s =>
      simp only [buildTree] at h
      cases h
      rfl
  | Node tag ch evs regs attrs =>
      simp only [buildTree] at h
      split at h
      · cases h
      · rename_i ch2 trees c2 hbt
        split at h
        · cases h
        · rename_i e hsa
          cases h
          simp only [Html.stripRegs]
          rw [buildTrees_stripRegs ch (c + evs.length) _ _ _ hbt]

/-- The lemma `buildTree_stripRegs` over sibling lists. -/
theorem buildTrees_stripRegs {msg : Type} (l : List (Html msg)) (c : Nat)
    (l2 : List (Html msg)) (ts : List Tree) (c2 : Nat)
    (h : buildTrees l c = some (l2, ts, c2)) :
    Html.stripRegsList l2 = Html.stripRegsList l := by
  cases l with
  | nil =>
      simp only [buildTrees] at h
      cases h
      rfl
  | cons x xs =>
      simp only [buildTrees] at h
      split at h
      · cases h
      · rename_i r1 hb1
        rcases hb2 : buildTrees xs r1.counter with _ | ⟨asts, trees, c3⟩ <;>
          simp only [hb2] at h
        · cases h
        · cases h
          simp only [Html.stripRegsList]
          rw [buildTree_stripRegs x c r1 hb1,
              buildTrees_stripRegs xs r1.counter asts trees c2 hb2]

end

mutual

/-- Patching changes only the listener registration of the next AST: its
value part is returned unchanged. -/
theorem patch_stripRegs {msg : Type} (p n : Html msg) (t : Tree) (c : Nat)
    (pr : PatchResult msg) (h : patch p n t c = some pr) :
    pr.nextAst.stripRegs = n.stripRegs := by
  cases p with
  | Text pc =>
      cases n with
      | Text nc =>
          simp only [patch] at h
          split at h
          · cases h
            rfl
          · cases h
            rfl
      | Node ntag nch nev nregs nattrs =>
          simp only [patch] at h
          split at h
          · cases h
          · rename_i r hb
            cases h
            exact buildTree_stripRegs _ _ _ hb
  | Node ptag pch pev pregs pattrs =>
      cases n with
      | Text nc =>
          simp only [patch] at h
          cases h
          rfl
      | Node ntag nch nev nregs nattrs =>
          by_cases htag : ptag = ntag
          · subst htag
            have hpe1 : (patchEvents (Html.Node ptag pch pev pregs pattrs)
                (Html.Node ptag nch nev nregs nattrs) t c).1 =
                Html.Node ptag nch nev
                  (nregs ++ nev.enum.map (fun p => (p.2, c + p.1))) nattrs :=
              rfl
            rw [patch_same_tag_eq] at h
            generalize hpe : patchEvents (Html.Node ptag pch pev pregs pattrs)
              (Html.Node ptag nch nev nregs nattrs) t c = pe at h hpe1
            rcases hattrs : patchAttributes (Html.Node ptag pch pev pregs pattrs)
                pe.1 pe.2.1 with _ | t2 <;> rw [hattrs] at h
            · cases h
            · cases t2 with
              | TextNode s ls =>
                  have h2 : (if nch.isEmpty then
                      some (⟨{ PatchStatus.zero with patched := 1 }, pe.1,
                            Tree.TextNode s ls, pe.2.2, []⟩ : PatchResult msg)
                    else none) = some pr := h
                  by_cases hemp : nch.isEmpty
                  · rw [if_pos hemp] at h2
                    cases h2
                    rw [hpe1]
                    have hch : nch = [] := List.isEmpty_iff.mp hemp
                    subst hch
                    rfl
                  · rw [if_neg hemp] at h2
                    cases h2
              | Elem tg aa cl pp ls tch =>
                  have h2 : (match patchChildren pch nch tch pe.2.2 with
                    | none => none
                    | some res =>
                        some (⟨⟨res.status.replaced, res.status.patched + 1,
                               res.status.removed + res.leftover.length,
                               res.status.added⟩,
                              pe.1.setChildren res.asts,
                              Tree.Elem tg aa cl pp ls res.processed,
                              res.counter,
                              res.removedNodes ++ res.leftover.reverse⟩ :
                          PatchResult msg)) = some pr := h
                  rcases hres : patchChildren pch nch tch pe.2.2 with _ | res <;>
                    rw [hres] at h2
                  · cases h2
                  · cases h2
                    rw [hpe1]
                    simp only [Html.setChildren, Html.stripRegs]
                    rw [patchChildren_stripRegs pch nch tch pe.2.2 res hres]
          · simp only [patch] at h
            rw [if_pos htag] at h
            split at h
            · cases h
            · rename_i r hb
              cases h
              exact buildTree_stripRegs _ _ _ hb

/-- The lemma `patch_stripRegs` over the child loop. -/
theorem patchChildren_stripRegs {msg : Type} (ps ns : List (Html msg))
    (ts : List Tree) (c : Nat) (res : ChildrenResult msg)
    (h : patchChildren ps ns ts c = some res) :
    Html.stripRegsList res.asts = Html.stripRegsList ns := by
  cases ns with
  | nil =>
      simp only [patchChildren] at h
      cases h
      rfl
  | cons n ns2 =>
      cases ts with
      | nil =>
          simp only [patchChildren] at h
          split at h
          · cases h
          · rename_i r hr
            split at h
            · cases h
            · rename_i res2 hres2
              cases h
              simp only [Html.stripRegsList]
              rw [buildTree_stripRegs _ _ _ hr,
                  patchChildren_stripRegs ps.tail ns2 [] r.counter res2 hres2]
      | cons t ts2 =>
          cases ps with
          | nil => simp [patchChildren] at h
          | cons p ps2 =>
              simp only [patchChildren] at h
              split at h
              · cases h
              · rename_i pr hpr
                split at h
                · cases h
                · rename_i res2 hres2
                  cases h
                  simp only [Html.stripRegsList]
                  rw [patch_stripRegs p n t c pr hpr,
                      patchChildren_stripRegs ps2 ns2 ts2 pr.counter res2 hres2]

end

/-- C9: while a live tree exists, one completed dispatch cycle runs
exactly the sequence: the model is replaced by `update(m, model)`, the next
AST is `view` of the new model, `patch` is invoked on the previous AST, the
next AST and the live tree, and the previous AST is then set to the
(registration-updated) next AST - so after the dispatch the stored
previous AST equals, up to listener-registration bookkeeping, `view`
applied to the current model.  If no live tree exists, the dispatch is a
no-op. -/
theorem dispatch_cycle_sequence {model msg : Type}
    (program : Program model msg) (m : msg) (s : LoopState model msg) :
    (∀ t, s.currentTree = some t →
      ∀ out, listenerStep program m s = some out →
        ∃ pr, patch s.previousView
            (program.view (program.update m s.currentModel)) t s.counter =
            some pr ∧
          out.1 = ⟨program.update m s.currentModel, pr.nextAst, some pr.tree,
                   pr.counter⟩ ∧
          out.2 = some pr.status ∧
          out.1.previousView.stripRegs =
            (program.view out.1.currentModel).stripRegs) ∧
    (s.currentTree = none → listenerStep program m s = some (s, none)) := by
  constructor
  · intro t ht out hout
    simp only [listenerStep, ht] at hout
    rcases hp : patch s.previousView
        (program.view (program.update m s.currentModel)) t s.counter
      with _ | pr <;> simp only [hp] at hout
    · cases hout
    · cases hout
      refine ⟨pr, rfl, rfl, rfl, ?_⟩
      simpa using patch_stripRegs _ _ _ _ _ hp
  · intro ht
    simp only [listenerStep, ht]

/-- A program used to exercise the dispatch loop at concrete inputs: a
counter model whose view is a constant text node. -/
def demoProgram : Program Nat Nat :=
  ⟨0, fun m n => m + n, fun _ => .Text "v"⟩

/-- The loop state of `demoProgram` right after initialization. -/
def demoState : LoopState Nat Nat :=
  ⟨0, .Text "v", some (.TextNode "v" []), 0⟩

/-- Witness for C9: a concrete dispatch of message `5` through
`demoProgram` completes, and afterwards the stored previous AST is the
view of the current model. -/
theorem dispatch_cycle_sequence_witness :
    ∃ out, listenerStep demoProgram 5 demoState = some out ∧
      out.1.currentModel = 5 ∧
      out.1.previousView.stripRegs =
        (demoProgram.view out.1.currentModel).stripRegs := by
  obtain ⟨hsome, hnone⟩ := dispatch_cycle_sequence demoProgram 5 demoState
  obtain ⟨pr, hp, h1, h2, h3⟩ := hsome (.TextNode "v" []) rfl _ rfl
  exact ⟨_, rfl, rfl, h3⟩

/-- C10: the `model` field of the record returned by `runProgram` and by
`runProgramWithHydration` is bound once at startup to the initial model
and never reassigned: after any sequence of `send` calls advancing the
internal closure state, the returned record's `model` field still equals
the initial model. -/
theorem runningProgram_model_frozen {model msg : Type}
    (program : Program model msg) :
    (∀ (rootExists : Bool) s rp k msgs s2,
      runProgram program rootExists = some (s, rp, k) →
      processMessages rp.send msgs s = some s2 →
      rp.model = program.initialModel) ∧
    (∀ (root : Option Tree) s rp k msgs s2,
      runProgramWithHydration program root = some (s, rp, k) →
      processMessages rp.send msgs s = some s2 →
      rp.model = program.initialModel) := by
  constructor
  · intro rootExists s rp k msgs s2 hrun hproc
    cases rootExists with
    | false =>
        simp only [runProgram, Bool.false_eq_true, if_false] at hrun
        cases hrun
        rfl
    | true =>
        simp only [runProgram, if_true] at hrun
        split at hrun
        · cases hrun
        · cases hrun
          rfl
  · intro root s rp k msgs s2 hrun hproc
    cases root with
    | none =>
        simp only [runProgramWithHydration] at hrun
        cases hrun
        rfl
    | some rootChild =>
        simp only [runProgramWithHydration] at hrun
        cases hrun
        rfl

/-- Witness for C10: running `demoProgram` with a mount point and sending
one message advances the internal model to `5`, while the returned
record's `model` field still equals the initial model `0`. -/
theorem runningProgram_model_frozen_witness :
    ∃ s rp s2, runProgram demoProgram true = some (s, rp, 0) ∧
      processMessages rp.send [5] s = some s2 ∧
      rp.model = demoProgram.initialModel ∧
      s2.currentModel ≠ demoProgram.initialModel := by
  have h := (runningProgram_model_frozen demoProgram).1 true
    ⟨0, .Text "v", some (.TextNode "v" []), 0⟩
    ⟨0, listenerStep demoProgram⟩ 0 [5]
    ⟨5, .Text "v", some (.TextNode "v" []), 0⟩ rfl rfl
  exact ⟨_, _, _, rfl, rfl, h, by decide⟩

/-- C8: with no mount point, `runProgram` reports the condition exactly
once, builds no live tree, and returns a record whose `model` is the
initial model and whose `send` discards every message without touching the
state or invoking update, view or patch. -/
theorem runProgram_missing_root {model msg : Type}
    (program : Program model msg) :
    ∃ s rp, runProgram program false = some (s, rp, 1) ∧
      s.currentTree = none ∧
      rp.model = program.initialModel ∧
      ∀ m st, rp.send m st = some (st, none) :=
  ⟨_, _, rfl, rfl, rfl, fun _ _ => rfl⟩

end Tea
